import Mathlib

/-!
# terraform-credentials-env: a verification development

A shallow embedding of `main.go` (the whole program: `main`,
`collectCredentialsFromEnv`, `resultJSON`) and theorems about it.

Conventions of the embedding.

* A Go `string` is a `List Char` (`Str`).  The program only searches for,
  compares with and substitutes the ASCII bytes of `"="`, `"TF_TOKEN_"`,
  `"_"`, `"."` and `"get"`; on UTF-8 text these byte operations and the
  corresponding character operations agree.
* `map[svchost.Hostname]string` is an association list without repeated keys
  (`CredMap`), read with `CredMap.get`, written with `CredMap.set`.
* The functions of `terraform-svchost` that the program calls and that are not
  part of this repository (`svchost.ForDisplay`, `svchost.ForComparison`) are
  fields of a parameter `Deps`; every general theorem is proved for all values
  of that parameter.
* `json.Marshal` is modelled at the type `resultJSON` as `encoding/json`
  documents and implements it: the struct becomes a JSON object whose member
  names are the `json` tags of the fields, a string becomes a JSON string with
  the escapes of the encoder.  The one point on which Go releases differ (the
  escapes of U+0008 and U+000C) is a field of `Deps` too.
* The process is a function of its environment (`os.Environ()`) and its
  argument vector (`os.Args`) to what it wrote on the two streams and its exit
  code.
-/

namespace CredentialsEnv

/-- Go `string`. -/
abbrev Str := List Char

/-- Go `svchost.Hostname` (`type Hostname string`); the conversion
`svchost.Hostname(s)` is the identity. -/
abbrev Hostname := Str

/-! ## The Go standard library functions used by the program -/

namespace strings

/-- Worker of `Index`: the first position, counted from `i`, at which `substr`
occurs in the rest of the string, or `-1`. -/
def IndexFrom (substr : Str) : Str → Nat → Int
  | [], i => if substr = [] then (i : Int) else -1
  | c :: cs, i =>
    if substr.isPrefixOf (c :: cs) then (i : Int) else IndexFrom substr cs (i + 1)

/-- Go `strings.Index(s, substr)`: the index of the first instance of `substr`
in `s`, or `-1` if `substr` is not present in `s`. -/
def Index (s substr : Str) : Int := IndexFrom substr s 0

/-- Go `strings.HasPrefix(s, p)`. -/
def HasPrefix (s p : Str) : Bool := p.isPrefixOf s

/-- Worker of `ReplaceAll` for a non-empty `old`: `skip` counts the characters
of a matched occurrence of `old` still to be dropped. -/
def ReplaceFrom (old new : Str) : Nat → Str → Str
  | _, [] => []
  | skip + 1, _ :: cs => ReplaceFrom old new skip cs
  | 0, c :: cs =>
    if old.isPrefixOf (c :: cs) then new ++ ReplaceFrom old new (old.length - 1) cs
    else c :: ReplaceFrom old new 0 cs

/-- Go `strings.ReplaceAll(s, old, new)`: `s` with all non-overlapping
instances of `old` replaced by `new`; if `old` is empty, `new` is inserted at
the beginning of the string and after each character. -/
def ReplaceAll (s old new : Str) : Str :=
  if old = [] then new ++ s.flatMap (fun c => c :: new) else ReplaceFrom old new 0 s

end strings

/-- Go slice expression `s[lo:hi]` on a string, for `0 ≤ lo ≤ hi ≤ len(s)`. -/
def slice (s : Str) (lo hi : Nat) : Str := (s.take hi).drop lo

/-- Go `type resultJSON struct` (lines 105–107), with its only field `Token`. -/
structure resultJSON where
  Token : Str
  deriving DecidableEq, Repr

/-- The fields of a `resultJSON` as `encoding/json` sees them, each with its
JSON name: the struct tag of `Token` on line 106 names it `token`. -/
def resultJSON.jsonFields (v : resultJSON) : List (Str × Str) :=
  [("token".toList, v.Token)]

namespace json

/-- The constant `hex` of `encoding/json`. -/
def hex : Str := "0123456789abcdef".toList

/-- What the string encoder of `encoding/json` (with HTML escaping, as
`json.Marshal` sets it) writes for one character of the source string.  The
quote and the backslash get a backslash in front; line feed, carriage return
and tab are written `\n`, `\r`, `\t`; the other characters below U+0020 and
`<`, `>`, `&` are written `\u00` and two digits of `hex`; U+2028 and U+2029 are
written `\u202` and one digit; every other character is copied.  With
`shortEscapes` (Go 1.22 and later) U+0008 and U+000C are written `\b` and `\f`;
without it they are written like the other control characters. -/
def appendRune (shortEscapes : Bool) (c : Char) : Str :=
  if c = '\\' ∨ c = '"' then ['\\', c]
  else if shortEscapes = true ∧ c = '\x08' then ['\\', 'b']
  else if shortEscapes = true ∧ c = '\x0c' then ['\\', 'f']
  else if c = '\n' then ['\\', 'n']
  else if c = '\r' then ['\\', 'r']
  else if c = '\t' then ['\\', 't']
  else if c.toNat < 32 ∨ c = '<' ∨ c = '>' ∨ c = '&' then
    ['\\', 'u', '0', '0', hex.getD (c.toNat / 16) '0', hex.getD (c.toNat % 16) '0']
  else if c = '\u2028' ∨ c = '\u2029' then
    ['\\', 'u', '2', '0', '2', hex.getD (c.toNat % 16) '0']
  else [c]

/-- The string encoder of `encoding/json` (`appendString`): a quote, the
characters of `src` each written by `appendRune`, a quote.  A byte that is not
valid UTF-8, which Go writes as `\ufffd`, does not occur in a `Str`. -/
def appendString (shortEscapes : Bool) (src : Str) : Str :=
  '"' :: (src.flatMap (appendRune shortEscapes) ++ ['"'])

/-- The struct encoder of `encoding/json` over the fields of the value: before
each field the byte `next` (an opening brace for the first field, a comma for
the others), the quoted name, a colon and the encoded value; at the end a
closing brace, or both braces when there was no field. -/
def structFields (shortEscapes : Bool) : Char → List (Str × Str) → Str
  | next, [] => if next = '\x7b' then ['\x7b', '\x7d'] else ['\x7d']
  | next, (name, value) :: rest =>
    next :: (appendString shortEscapes name ++ ':' ::
      (appendString shortEscapes value ++ structFields shortEscapes ',' rest))

/-- Go `json.Marshal(v)` at a `v` of type `resultJSON`.  In Go the result is
`([]byte, error)`; at this type the error is always `nil`. -/
def Marshal (shortEscapes : Bool) (v : resultJSON) : Except Str Str :=
  .ok (structFields shortEscapes '\x7b' v.jsonFields)

end json

/-! ## Functions of other packages, taken as parameters -/

/-- The functions of `github.com/hashicorp/terraform-svchost` that `main.go`
calls, and the release of `encoding/json` it is built with.  `ForComparison`
returns `(Hostname, error)` in Go; the error is kept as its message. -/
structure Deps where
  /-- Go `svchost.ForDisplay(given string) string`. -/
  ForDisplay : Str → Str
  /-- Go `svchost.ForComparison(given string) (Hostname, error)`. -/
  ForComparison : Str → Except Str Hostname
  /-- Whether `encoding/json` writes U+0008 and U+000C as `\b` and `\f` (Go 1.22
  and later) or as `\u0008` and `\u000c` (earlier releases). -/
  jsonShortEscapes : Bool

/-! ## The credentials map -/

/-- Go `map[svchost.Hostname]string`. -/
abbrev CredMap := List (Hostname × Str)

namespace CredMap

/-- Go `make(map[svchost.Hostname]string)`. -/
def empty : CredMap := []

/-- Go `v, ok := m[k]`: `some v` when `ok`, `none` otherwise. -/
def get (m : CredMap) (k : Hostname) : Option Str :=
  match m with
  | [] => none
  | (k', v) :: rest => if k' = k then some v else get rest k

/-- Go `m[k] = v`: the entry for `k` is replaced if there is one, added
otherwise. -/
def set (m : CredMap) (k : Hostname) (v : Str) : CredMap :=
  (k, v) :: m.filter (fun p => decide (p.1 ≠ k))

/-- The keys of the map. -/
def keys (m : CredMap) : List Hostname := m.map Prod.fst

end CredMap

/-! ## `main.go` -/

/-- The constant `prefix` of `collectCredentialsFromEnv` (line 61). -/
def envPrefix : Str := "TF_TOKEN_".toList

/-- The body of the loop of `collectCredentialsFromEnv` (lines 65–99) for one
element `ev` of `os.Environ()`, as a function of the map built so far; each
`continue` returns the map unchanged. -/
def collectStep (d : Deps) (ret : CredMap) (ev : Str) : CredMap :=
  let eqIdx := strings.Index ev "=".toList
  if eqIdx < 0 then ret
  else
    let name := slice ev 0 eqIdx.toNat
    let value := slice ev (eqIdx.toNat + 1) ev.length
    if !strings.HasPrefix name envPrefix then ret
    else
      let rawHost := slice name envPrefix.length name.length
      let rawHost := strings.ReplaceAll rawHost "_".toList ".".toList
      let dispHost := d.ForDisplay rawHost
      match d.ForComparison dispHost with
      | .error _ => ret
      | .ok hostname => ret.set hostname value

/-- Go `collectCredentialsFromEnv` (lines 60–103), with `os.Environ()` as its
argument `environ`: the loop runs over the entries in order, starting from the
empty map. -/
def collectCredentialsFromEnv (d : Deps) (environ : List Str) : CredMap :=
  environ.foldl (collectStep d) CredMap.empty

/-- What a run of the process leaves behind: the bytes written to standard
output and to standard error, and the exit code. -/
structure Run where
  stdout : Str
  stderr : Str
  exitCode : Nat
  deriving DecidableEq, Repr

/-- The two `fmt.Fprintln(os.Stderr, ...)` of lines 27–28. -/
def usageText : Str :=
  "Usage: terraform-credentials-env get <hostname>".toList ++ "\n".toList ++
  ("\nThis is a Terraform credentials helper, not intended to be run directly from a shell.".toList
    ++ "\n".toList)

/-- The `fmt.Fprintf` of line 40, `host` being `svchost.ForDisplay(args[1])`. -/
def notFoundText (host : Str) : Str :=
  "No credentials for ".toList ++ host ++ " are defined via environment variables.\n".toList

/-- The `fmt.Fprintf` of line 47. -/
def serializeFailedText (err : Str) : Str :=
  "Failed to serialize result: ".toList ++ err ++ "\n".toList

/-- The `fmt.Fprintf` of line 55. -/
def unsupportedText (verb : Str) : Str :=
  "The 'env' credentials helper is not able to ".toList ++ verb ++ " credentials.\n".toList

/-- Go `main` (lines 22–58).  `environ` is `os.Environ()`, `osArgs` is
`os.Args` (the program name first).  The result is `none` when the slice
expression `os.Args[1:]` panics (an empty `os.Args`), and the `Run` of the
process otherwise.  After the test `len(args) < 2` the list has the elements
`args[0]` and `args[1]`, so the last case of the inner `match` is never taken. -/
def main (d : Deps) (environ : List Str) (osArgs : List Str) : Option Run :=
  let creds := collectCredentialsFromEnv d environ
  match osArgs with
  | [] => none
  | _ :: args =>
    if args.length < 2 then
      some { stdout := [], stderr := usageText, exitCode := 1 }
    else
      match args with
      | arg0 :: arg1 :: _ =>
        if arg0 = "get".toList then
          let wantedHost : Hostname := arg1
          match creds.get wantedHost with
          | none =>
            some { stdout := [], stderr := notFoundText (d.ForDisplay arg1), exitCode := 1 }
          | some token =>
            let result : resultJSON := { Token := token }
            match json.Marshal d.jsonShortEscapes result with
            | .error err =>
              some { stdout := [], stderr := serializeFailedText err, exitCode := 1 }
            | .ok encoded =>
              some { stdout := encoded ++ "\n".toList, stderr := [], exitCode := 0 }
        else
          some { stdout := [], stderr := unsupportedText arg0, exitCode := 1 }
      | _ => none

/-! ## A concrete instance of the parameters, for evaluation -/

/-- ASCII letters, digits, the hyphen and the dot. -/
def isHostChar (c : Char) : Bool :=
  c.isAlphanum || c = '-' || c = '.'

/-- The printable ASCII characters other than the quote, the backslash and
`<`, `>`, `&`. -/
def isPlainJSONChar (c : Char) : Bool :=
  decide (32 ≤ c.toNat ∧ c.toNat < 127) && c ≠ '"' && c ≠ '\\' && c ≠ '<' && c ≠ '>' && c ≠ '&'

/-- An instance of `Deps` for evaluating the program at plain ASCII inputs.
It agrees with svchost on host names without a port whose labels are made of
ASCII letters, digits and inner hyphens (both functions fold such a name to
lower case), and `ForComparison` fails on the empty string and on a name
holding a space or another character outside that alphabet.  Internationalised
names and ports are outside this instance: there `ForDisplay` returns its
argument and `ForComparison` fails. -/
def asciiDeps : Deps where
  ForDisplay := fun s => if s.all isHostChar then s.map Char.toLower else s
  ForComparison := fun s =>
    if s ≠ [] ∧ s.all isHostChar then .ok (s.map Char.toLower)
    else .error "not a plain ASCII host name".toList
  jsonShortEscapes := true

/-! ## The claims' vocabulary, as definitions -/

/-- The name of an environment entry: the text before its first `=`. -/
def entryName (ev : Str) : Str := ev.takeWhile (fun c => c != '=')

/-- The value of an environment entry: everything after its first `=`. -/
def entryValue (ev : Str) : Str := (ev.dropWhile (fun c => c != '=')).drop 1

/-- The canonical host name of the remainder `rest` of a variable name after
`TF_TOKEN_`: `ForComparison(ForDisplay(replaceAll(rest, "_", ".")))`. -/
def canonicalHost (d : Deps) (rest : Str) : Except Str Hostname :=
  d.ForComparison (d.ForDisplay (strings.ReplaceAll rest "_".toList ".".toList))

/-- The credential an environment entry stands for, if any: the entry contains
`=`, its name starts with `TF_TOKEN_`, and the remainder of the name
canonicalizes; the credential is that canonical host name with the entry's
value. -/
def credentialOf (d : Deps) (ev : Str) : Option (Hostname × Str) :=
  if '=' ∈ ev ∧ envPrefix <+: entryName ev then
    match canonicalHost d ((entryName ev).drop envPrefix.length) with
    | .ok h => some (h, entryValue ev)
    | .error _ => none
  else none

/-- An entry with the `TF_TOKEN_` prefix whose decoded host name fails
canonicalization. -/
def isInvalidEntry (d : Deps) (ev : Str) : Bool :=
  decide ('=' ∈ ev ∧ envPrefix <+: entryName ev) &&
    match canonicalHost d ((entryName ev).drop envPrefix.length) with
    | .ok _ => false
    | .error _ => true

/-- The entry `ev` qualifies for the host name `h` with the token `value`: it
is `TF_TOKEN_` followed by a remainder `rest` without `=`, then `=`, then
`value`, and `rest` canonicalizes to `h`. -/
def Qualifies (d : Deps) (ev : Str) (h : Hostname) (value : Str) : Prop :=
  ∃ rest : Str, ev = envPrefix ++ rest ++ '=' :: value ∧ '=' ∉ rest ∧
    canonicalHost d rest = .ok h

/-- The escaped form of a host name, as used in a variable name: every `.`
replaced by `_`. -/
def escapedForm (H : Str) : Str := strings.ReplaceAll H ".".toList "_".toList

/-- The spec's `ToDisplayForm`: the literal substitution of line 79. -/
def ToDisplayForm (raw : Str) : Str := strings.ReplaceAll raw "_".toList ".".toList

/-- The spec's `ToCanonicalForm` of a display-form host name, which may be a
Unicode name or an already encoded one: lines 92–93. -/
def ToCanonicalForm (d : Deps) (display : Str) : Except Str Hostname :=
  d.ForComparison (d.ForDisplay display)

/-! ## A reader of JSON texts, for stating what the output denotes -/

namespace json

/-- The value of a hexadecimal digit. -/
def hexValue (c : Char) : Option Nat :=
  if 48 ≤ c.toNat ∧ c.toNat ≤ 57 then some (c.toNat - 48)
  else if 97 ≤ c.toNat ∧ c.toNat ≤ 102 then some (c.toNat - 87)
  else if 65 ≤ c.toNat ∧ c.toNat ≤ 70 then some (c.toNat - 55)
  else none

/-- The character that a two-character escape of a JSON string stands for
(RFC 8259, section 7), given the character after the backslash. -/
def readEscape (x : Char) : Option Char :=
  if x = '"' then some '"'
  else if x = '\\' then some '\\'
  else if x = '/' then some '/'
  else if x = 'b' then some '\x08'
  else if x = 'f' then some '\x0c'
  else if x = 'n' then some '\n'
  else if x = 'r' then some '\r'
  else if x = 't' then some '\t'
  else none

/-- Reads a JSON string (RFC 8259, section 7) whose opening quote has been
consumed: the string it denotes and the text after its closing quote.  A
character below U+0020 must be escaped; an escape `\u` with four hexadecimal
digits denotes the character with that code, and the reader refuses the codes
of surrogates. -/
def readChars : Str → Option (Str × Str)
  | [] => none
  | c :: rest =>
    if c = '"' then some ([], rest)
    else if c = '\\' then
      match rest with
      | [] => none
      | x :: rest1 =>
        if x = 'u' then
          match rest1 with
          | h1 :: h2 :: h3 :: h4 :: rest2 =>
            match hexValue h1, hexValue h2, hexValue h3, hexValue h4, readChars rest2 with
            | some a, some b, some c3, some e, some (s, after) =>
              if 55296 ≤ ((a * 16 + b) * 16 + c3) * 16 + e ∧
                  ((a * 16 + b) * 16 + c3) * 16 + e ≤ 57343 then none
              else some (Char.ofNat (((a * 16 + b) * 16 + c3) * 16 + e) :: s, after)
            | _, _, _, _, _ => none
          | _ => none
        else
          match readEscape x, readChars rest1 with
          | some ch, some (s, after) => some (ch :: s, after)
          | _, _ => none
    else if c.toNat < 32 then none
    else
      match readChars rest with
      | some (s, after) => some (c :: s, after)
      | none => none

/-- Reads a JSON text that is an object with exactly one member whose value is
a string, written without white space: the name and the value of the member. -/
def readObject (text : Str) : Option (Str × Str) :=
  match text with
  | o :: q :: rest =>
    if o = '\x7b' ∧ q = '"' then
      match readChars rest with
      | some (name, colon :: q2 :: rest1) =>
        if colon = ':' ∧ q2 = '"' then
          match readChars rest1 with
          | some (value, [close]) => if close = '\x7d' then some (name, value) else none
          | _ => none
        else none
      | _ => none
    else none
  | _ => none

end json

/-! ## The standard library functions at the program's arguments -/

theorem IndexFrom_single_not_mem (c : Char) :
    ∀ (s : Str) (i : Nat), c ∉ s → strings.IndexFrom [c] s i = -1 := by
  intro s
  induction s with
  | nil => intro i _; simp [strings.IndexFrom]
  | cons x xs ih =>
    intro i h
    have hx : c ≠ x := fun e => h (by simp [e])
    have hxs : c ∉ xs := fun e => h (by simp [e])
    simp [strings.IndexFrom, List.isPrefixOf, hx, ih _ hxs]

theorem IndexFrom_single_append (c : Char) :
    ∀ (a b : Str) (i : Nat), c ∉ a →
      strings.IndexFrom [c] (a ++ c :: b) i = ((i + a.length : Nat) : Int) := by
  intro a
  induction a with
  | nil => intro b i _; simp [strings.IndexFrom, List.isPrefixOf]
  | cons x xs ih =>
    intro b i h
    have hx : c ≠ x := fun e => h (by simp [e])
    have hxs : c ∉ xs := fun e => h (by simp [e])
    simp [strings.IndexFrom, List.isPrefixOf, hx, ih b (i + 1) hxs]
    omega

theorem ReplaceFrom_single (a b : Char) (s : Str) :
    strings.ReplaceFrom [a] [b] 0 s = s.map (fun c => if c = a then b else c) := by
  induction s with
  | nil => simp [strings.ReplaceFrom]
  | cons x xs ih =>
    by_cases hx : a = x
    · subst hx; simp [strings.ReplaceFrom, List.isPrefixOf, ih]
    · have hx2 : ¬ x = a := fun e => hx e.symm
      simp [strings.ReplaceFrom, List.isPrefixOf, ih, hx, hx2]

theorem ReplaceAll_single (a b : Char) (s : Str) :
    strings.ReplaceAll s [a] [b] = s.map (fun c => if c = a then b else c) := by
  simp [strings.ReplaceAll, ReplaceFrom_single]

theorem split_first (c : Char) :
    ∀ s : Str, c ∈ s → ∃ a b : Str, s = a ++ c :: b ∧ c ∉ a := by
  intro s
  induction s with
  | nil => intro h; simp at h
  | cons x xs ih =>
    intro h
    by_cases hx : c = x
    · exact ⟨[], xs, by simp [hx], by simp⟩
    · have hxs : c ∈ xs := by
        rcases List.mem_cons.1 h with h1 | h1
        · exact absurd h1 hx
        · exact h1
      obtain ⟨a, b, hab, hca⟩ := ih hxs
      refine ⟨x :: a, b, by simp [hab], ?_⟩
      intro hmem
      rcases List.mem_cons.1 hmem with h1 | h1
      · exact hx h1
      · exact hca h1

/-! ## One step of the scan -/

theorem slice_name (name value : Str) :
    slice (name ++ '=' :: value) 0 name.length = name := by
  simp [slice]

theorem slice_value (name value : Str) :
    slice (name ++ '=' :: value) (name.length + 1) (name ++ '=' :: value).length = value := by
  have h : List.drop (name.length + 1) (name ++ '=' :: value) = value := by
    rw [List.drop_append]; rfl
  unfold slice
  rw [List.take_length, h]

theorem slice_rest (name : Str) (n : Nat) : slice name n name.length = name.drop n := by
  simp [slice]

theorem entryName_split (name value : Str) (h : '=' ∉ name) :
    entryName (name ++ '=' :: value) = name := by
  induction name with
  | nil => simp [entryName]
  | cons x xs ih =>
    have hx : x ≠ '=' := fun e => h (by simp [e])
    have hxs : '=' ∉ xs := fun e => h (by simp [e])
    have := ih hxs
    have hb : (x != '=') = true := by simpa using hx
    simp only [entryName] at this ⊢
    simp [List.takeWhile, hb, this]

theorem entryValue_split (name value : Str) (h : '=' ∉ name) :
    entryValue (name ++ '=' :: value) = value := by
  induction name with
  | nil => simp [entryValue]
  | cons x xs ih =>
    have hx : x ≠ '=' := fun e => h (by simp [e])
    have hxs : '=' ∉ xs := fun e => h (by simp [e])
    have := ih hxs
    have hb : (x != '=') = true := by simpa using hx
    simp only [entryValue] at this ⊢
    simp only [List.cons_append, List.dropWhile, hb]
    exact this

/-- An entry without `=` leaves the map as it is. -/
theorem collectStep_no_eq (d : Deps) (m : CredMap) (ev : Str) (h : '=' ∉ ev) :
    collectStep d m ev = m := by
  have hidx : strings.Index ev "=".toList = -1 := IndexFrom_single_not_mem '=' ev 0 h
  unfold collectStep
  simp only [hidx]
  rfl

/-- The step at an entry split at its first `=`. -/
theorem collectStep_split (d : Deps) (m : CredMap) (name value : Str) (h : '=' ∉ name) :
    collectStep d m (name ++ '=' :: value) =
      if envPrefix <+: name then
        match canonicalHost d (name.drop envPrefix.length) with
        | .ok hn => m.set hn value
        | .error _ => m
      else m := by
  have hidx : strings.Index (name ++ '=' :: value) "=".toList = ((name.length : Nat) : Int) := by
    have := IndexFrom_single_append '=' name value 0 h
    simpa [strings.Index] using this
  have hv := slice_value name value
  have hn := slice_name name value
  unfold collectStep
  simp only [hidx, Int.toNat_ofNat, hn, hv, slice_rest]
  have hneg : ¬ ((name.length : Int) < 0) := by omega
  simp only [hneg, if_false]
  by_cases hp : envPrefix <+: name
  · have hb : strings.HasPrefix name envPrefix = true := by
      simpa [strings.HasPrefix] using hp
    simp only [hb, hp, if_true, canonicalHost]
    cases d.ForComparison (d.ForDisplay (strings.ReplaceAll (List.drop envPrefix.length name)
      "_".toList ".".toList)) <;> simp
  · have hb : strings.HasPrefix name envPrefix = false := by
      rw [strings.HasPrefix, Bool.eq_false_iff, ne_eq, List.isPrefixOf_iff_prefix]
      exact hp
    simp [hb, hp]

/-- The step in terms of the credential the entry stands for. -/
theorem collectStep_eq (d : Deps) (m : CredMap) (ev : Str) :
    collectStep d m ev =
      match credentialOf d ev with
      | some (h, v) => m.set h v
      | none => m := by
  by_cases hmem : '=' ∈ ev
  · obtain ⟨name, value, rfl, hname⟩ := split_first '=' ev hmem
    rw [collectStep_split d m name value hname]
    unfold credentialOf
    rw [entryName_split name value hname, entryValue_split name value hname]
    by_cases hp : envPrefix <+: name
    · simp only [hp, hmem, and_self, if_true]
      cases canonicalHost d (List.drop envPrefix.length name) <;> simp
    · simp [hp]
  · rw [collectStep_no_eq d m ev hmem]
    simp [credentialOf, hmem]

/-! ## The credentials map -/

theorem get_filter_ne (m : CredMap) (k k' : Hostname) (h : k' ≠ k) :
    CredMap.get (m.filter (fun p => decide (p.1 ≠ k))) k' = CredMap.get m k' := by
  induction m with
  | nil => rfl
  | cons p rest ih =>
    obtain ⟨a, b⟩ := p
    by_cases ha : a = k
    · have hne : ¬ a = k' := fun e => h (e.symm.trans ha)
      rw [List.filter_cons_of_neg (by simp [ha]), ih]
      simp only [CredMap.get, hne, if_false]
    · rw [List.filter_cons_of_pos (by simp [ha])]
      simp only [CredMap.get, ih]

theorem get_set_self (m : CredMap) (k : Hostname) (v : Str) :
    (m.set k v).get k = some v := by
  simp [CredMap.set, CredMap.get]

theorem get_set_ne (m : CredMap) (k k' : Hostname) (v : Str) (h : k' ≠ k) :
    (m.set k v).get k' = m.get k' := by
  have hk : ¬ k = k' := fun e => h e.symm
  simp only [CredMap.set, CredMap.get, hk, if_false]
  exact get_filter_ne m k k' h

theorem mem_keys_iff_get (m : CredMap) (k : Hostname) :
    k ∈ m.keys ↔ ∃ v, m.get k = some v := by
  induction m with
  | nil => simp [CredMap.keys, CredMap.get]
  | cons p rest ih =>
    obtain ⟨a, b⟩ := p
    by_cases ha : a = k
    · simp [CredMap.keys, CredMap.get, ha]
    · have hk : ¬ k = a := fun e => ha e.symm
      simp only [CredMap.keys, List.map_cons, List.mem_cons, hk, false_or, CredMap.get, ha,
        if_false]
      exact ih

theorem not_mem_keys_iff_get (m : CredMap) (k : Hostname) :
    k ∉ m.keys ↔ m.get k = none := by
  rw [mem_keys_iff_get]
  cases m.get k <;> simp

theorem mem_keys_set (m : CredMap) (k k' : Hostname) (v : Str) :
    k' ∈ (m.set k v).keys ↔ k' = k ∨ k' ∈ m.keys := by
  by_cases h : k' = k
  · subst h
    simp [mem_keys_iff_get, get_set_self]
  · simp [mem_keys_iff_get, get_set_ne m k k' v h, h]

/-! ## The whole scan -/

theorem split_last {α : Type} (x : α) :
    ∀ l : List α, x ∈ l → ∃ a b : List α, l = a ++ x :: b ∧ x ∉ b := by
  intro l
  induction l with
  | nil => intro h; simp at h
  | cons y ys ih =>
    intro h
    by_cases hys : x ∈ ys
    · obtain ⟨a, b, hab, hb⟩ := ih hys
      exact ⟨y :: a, b, by simp [hab], hb⟩
    · have hxy : x = y := by
        rcases List.mem_cons.1 h with h1 | h1
        · exact h1
        · exact absurd h1 hys
      exact ⟨[], ys, by simp [hxy], hys⟩

theorem collect_snoc (d : Deps) (environ : List Str) (ev : Str) :
    collectCredentialsFromEnv d (environ ++ [ev]) =
      collectStep d (collectCredentialsFromEnv d environ) ev := by
  simp [collectCredentialsFromEnv, List.foldl_append]

/-- Entries that stand for no credential can be dropped anywhere in the scan. -/
theorem foldl_filter (d : Deps) (p : Str → Bool)
    (hp : ∀ ev, p ev = false → credentialOf d ev = none) :
    ∀ (environ : List Str) (m : CredMap),
      (environ.filter p).foldl (collectStep d) m = environ.foldl (collectStep d) m := by
  intro environ
  induction environ with
  | nil => intro m; rfl
  | cons ev rest ih =>
    intro m
    by_cases h : p ev = true
    · simp [List.filter, h, ih]
    · have hf : p ev = false := by simpa using h
      have hstep : collectStep d m ev = m := by
        rw [collectStep_eq, hp ev hf]
      simp [List.filter, hf, ih, hstep]

theorem collect_drop (d : Deps) (pre post : List Str) (ev : Str)
    (h : credentialOf d ev = none) :
    collectCredentialsFromEnv d (pre ++ ev :: post) =
      collectCredentialsFromEnv d (pre ++ post) := by
  have hstep : ∀ m, collectStep d m ev = m := by
    intro m
    rw [collectStep_eq, h]
  simp [collectCredentialsFromEnv, List.foldl_append, hstep]

/-- The entry for `h` survives the entries that do not stand for `h`. -/
theorem foldl_get_of_none (d : Deps) (h : Hostname) :
    ∀ (post : List Str) (m : CredMap),
      (∀ ev ∈ post, ∀ v, credentialOf d ev ≠ some (h, v)) →
      (post.foldl (collectStep d) m).get h = m.get h := by
  intro post
  induction post with
  | nil => intro m _; rfl
  | cons ev rest ih =>
    intro m hall
    have hrest : ∀ e ∈ rest, ∀ v, credentialOf d e ≠ some (h, v) :=
      fun e he v => hall e (List.mem_cons_of_mem _ he) v
    rw [List.foldl_cons, ih _ hrest, collectStep_eq]
    have hev := hall ev (List.mem_cons_self _ _)
    cases hc : credentialOf d ev with
    | none => rfl
    | some kv =>
      obtain ⟨k, v⟩ := kv
      have hk : h ≠ k := by
        intro e
        subst e
        exact hev v hc
      exact get_set_ne m k h v hk

/-- The last entry standing for `h` decides the token of `h`. -/
theorem collect_get_last (d : Deps) (pre post : List Str) (ev : Str) (h : Hostname) (v : Str)
    (hev : credentialOf d ev = some (h, v))
    (hpost : ∀ e ∈ post, ∀ w, credentialOf d e ≠ some (h, w)) :
    (collectCredentialsFromEnv d (pre ++ ev :: post)).get h = some v := by
  unfold collectCredentialsFromEnv
  rw [List.foldl_append, List.foldl_cons, foldl_get_of_none d h post _ hpost, collectStep_eq, hev]
  exact get_set_self _ h v

theorem foldl_mem_keys (d : Deps) (h : Hostname) :
    ∀ (environ : List Str) (m : CredMap),
      h ∈ (environ.foldl (collectStep d) m).keys ↔
        h ∈ m.keys ∨ ∃ ev ∈ environ, ∃ v, credentialOf d ev = some (h, v) := by
  intro environ
  induction environ with
  | nil => intro m; simp
  | cons ev rest ih =>
    intro m
    rw [List.foldl_cons, ih, collectStep_eq]
    cases hc : credentialOf d ev with
    | none => simp [hc]
    | some kv =>
      obtain ⟨k, v⟩ := kv
      simp only [mem_keys_set, List.mem_cons, exists_eq_or_imp, hc, Option.some.injEq,
        Prod.mk.injEq]
      constructor
      · rintro ((h1 | h1) | h1)
        · exact Or.inr (Or.inl ⟨v, h1.symm, rfl⟩)
        · exact Or.inl h1
        · exact Or.inr (Or.inr h1)
      · rintro (h1 | ⟨w, h1, _⟩ | h1)
        · exact Or.inl (Or.inr h1)
        · exact Or.inl (Or.inl h1.symm)
        · exact Or.inr h1

/-! ## Entries and the credentials they stand for -/

theorem eq_not_mem_envPrefix : '=' ∉ envPrefix := by decide

theorem credentialOf_split (d : Deps) (rest value : Str) (h : '=' ∉ rest) :
    credentialOf d (envPrefix ++ rest ++ '=' :: value) =
      match canonicalHost d rest with
      | .ok hn => some (hn, value)
      | .error _ => none := by
  have hname : '=' ∉ envPrefix ++ rest := by
    intro hmem
    rcases List.mem_append.1 hmem with h1 | h1
    · exact eq_not_mem_envPrefix h1
    · exact h h1
  have hmem : '=' ∈ envPrefix ++ rest ++ '=' :: value := by simp
  have hpre : envPrefix <+: envPrefix ++ rest := List.prefix_append _ _
  unfold credentialOf
  rw [entryName_split _ value hname, entryValue_split _ value hname, List.drop_left]
  simp only [hmem, hpre, and_self, if_true]

theorem credentialOf_eq_some_iff (d : Deps) (ev : Str) (h : Hostname) (v : Str) :
    credentialOf d ev = some (h, v) ↔ Qualifies d ev h v := by
  constructor
  · intro hc
    by_cases hcond : '=' ∈ ev ∧ envPrefix <+: entryName ev
    · obtain ⟨hmem, hpre⟩ := hcond
      obtain ⟨name, value, rfl, hname⟩ := split_first '=' ev hmem
      rw [entryName_split name value hname] at hpre
      obtain ⟨rest, rfl⟩ := hpre
      have hrest : '=' ∉ rest := fun e => hname (List.mem_append_right _ e)
      rw [credentialOf_split d rest value hrest] at hc
      cases hcan : canonicalHost d rest with
      | error e => rw [hcan] at hc; cases hc
      | ok hn =>
        rw [hcan] at hc
        simp only [Option.some.injEq, Prod.mk.injEq] at hc
        obtain ⟨h1, h2⟩ := hc
        subst h1 h2
        exact ⟨rest, rfl, hrest, hcan⟩
    · simp [credentialOf, hcond] at hc
  · rintro ⟨rest, rfl, hrest, hcan⟩
    rw [credentialOf_split d rest v hrest, hcan]

theorem credentialOf_no_eq (d : Deps) (ev : Str) (h : '=' ∉ ev) : credentialOf d ev = none := by
  simp [credentialOf, h]

theorem credentialOf_no_envPrefix (d : Deps) (ev : Str) (h : ¬ envPrefix <+: entryName ev) :
    credentialOf d ev = none := by
  simp [credentialOf, h]

theorem credentialOf_invalid (d : Deps) (ev : Str) (h : isInvalidEntry d ev = true) :
    credentialOf d ev = none := by
  unfold isInvalidEntry at h
  unfold credentialOf
  cases hcan : canonicalHost d ((entryName ev).drop envPrefix.length) with
  | error e => split <;> rfl
  | ok hn => rw [hcan] at h; simp at h

/-- A token found in the map is the value of some entry standing for that key. -/
theorem foldl_get_some (d : Deps) (h : Hostname) (v : Str) :
    ∀ (environ : List Str) (m : CredMap),
      (environ.foldl (collectStep d) m).get h = some v →
        m.get h = some v ∨ ∃ ev ∈ environ, credentialOf d ev = some (h, v) := by
  intro environ
  induction environ with
  | nil => intro m hm; exact Or.inl hm
  | cons ev rest ih =>
    intro m hm
    rw [List.foldl_cons] at hm
    rcases ih _ hm with h1 | ⟨e, he, hc⟩
    · rw [collectStep_eq] at h1
      cases hc : credentialOf d ev with
      | none => rw [hc] at h1; exact Or.inl h1
      | some kw =>
        obtain ⟨k, w⟩ := kw
        rw [hc] at h1
        by_cases hk : h = k
        · subst hk
          rw [get_set_self] at h1
          simp only [Option.some.injEq] at h1
          subst h1
          exact Or.inr ⟨ev, List.mem_cons_self _ _, hc⟩
        · rw [get_set_ne m k h w hk] at h1
          exact Or.inl h1
    · exact Or.inr ⟨e, List.mem_cons_of_mem _ he, hc⟩

/-- The last element of a list with a given property, when there is one. -/
theorem split_last_of {α : Type} (P : α → Prop) :
    ∀ l : List α, (∃ x ∈ l, P x) →
      ∃ (a : List α) (x : α) (b : List α), l = a ++ x :: b ∧ P x ∧ ∀ y ∈ b, ¬ P y := by
  intro l
  induction l with
  | nil => rintro ⟨x, hx, _⟩; simp at hx
  | cons y ys ih =>
    rintro ⟨x, hx, hPx⟩
    by_cases hys : ∃ z ∈ ys, P z
    · obtain ⟨a, z, b, hab, hz, hb⟩ := ih hys
      exact ⟨y :: a, z, b, by simp [hab], hz, hb⟩
    · have hxy : x = y := by
        rcases List.mem_cons.1 hx with h1 | h1
        · exact h1
        · exact absurd ⟨x, h1, hPx⟩ hys
      subst hxy
      exact ⟨[], x, ys, rfl, hPx, fun z hz hPz => hys ⟨z, hz, hPz⟩⟩

theorem toNat_ofNat_small (k : Nat) (hk : k < 55296) : (Char.ofNat k).toNat = k := by
  have hv : k.isValidChar := Or.inl hk
  simp [Char.ofNat, hv, Char.ofNatAux, Char.toNat, UInt32.toNat]

/-- Folding to lower case never yields an ASCII capital. -/
theorem toLower_not_upper (c : Char) : ¬ (65 ≤ c.toLower.toNat ∧ c.toLower.toNat ≤ 90) := by
  simp only [Char.toLower]
  split
  · rename_i hr
    rw [toNat_ofNat_small _ (by omega)]
    omega
  · rename_i hr
    exact hr

/-- The instance `asciiDeps` never returns a host name that starts with an
ASCII capital. -/
theorem asciiDeps_ForComparison_lower (x : Str) (c : Char) (r : Str)
    (hc : 65 ≤ c.toNat ∧ c.toNat ≤ 90) : asciiDeps.ForComparison x ≠ .ok (c :: r) := by
  intro h
  simp only [asciiDeps] at h
  split at h
  · simp only [Except.ok.injEq] at h
    cases x with
    | nil => simp at h
    | cons y ys =>
      simp only [List.map_cons, List.cons.injEq] at h
      exact toLower_not_upper y (h.1 ▸ hc)
  · cases h

/-- Undoing the escape gives the host name back when it holds no underscore. -/
theorem unescape_escapedForm (H : Str) (h : '_' ∉ H) :
    strings.ReplaceAll (escapedForm H) "_".toList ".".toList = H := by
  have e1 : "_".toList = ['_'] := rfl
  have e2 : ".".toList = ['.'] := rfl
  rw [escapedForm, e1, e2, ReplaceAll_single, ReplaceAll_single, List.map_map]
  conv_rhs => rw [← List.map_id H]
  apply List.map_congr_left
  intro c hc
  have hne : c ≠ '_' := fun e => h (e ▸ hc)
  by_cases hdot : c = '.'
  · simp [hdot]
  · simp [hdot, hne]

/-- The substitution leaves a string without underscore as it is. -/
theorem unescape_self (H : Str) (h : '_' ∉ H) :
    strings.ReplaceAll H "_".toList ".".toList = H := by
  have e1 : "_".toList = ['_'] := rfl
  have e2 : ".".toList = ['.'] := rfl
  rw [e1, e2, ReplaceAll_single]
  conv_rhs => rw [← List.map_id H]
  apply List.map_congr_left
  intro c hc
  have hne : c ≠ '_' := fun e => h (e ▸ hc)
  simp [hne]

theorem escapedForm_not_mem_eq (H : Str) (h : '=' ∉ H) : '=' ∉ escapedForm H := by
  have e1 : "_".toList = ['_'] := rfl
  have e2 : ".".toList = ['.'] := rfl
  rw [escapedForm, e1, e2, ReplaceAll_single]
  intro hmem
  obtain ⟨c, hc, hceq⟩ := List.mem_map.1 hmem
  by_cases hdot : c = '.'
  · simp [hdot] at hceq
  · simp only [hdot, if_false] at hceq
    exact h (hceq ▸ hc)

theorem keys_set (m : CredMap) (k : Hostname) (v : Str) :
    (m.set k v).keys = k :: m.keys.filter (fun a => decide (a ≠ k)) := by
  simp only [CredMap.set, CredMap.keys, List.map_cons, List.filter_map]
  rfl

/-- The keys after a scan depend on the keys before it and on the keys, not the
values, of the credentials the entries stand for. -/
theorem foldl_keys_congr (d : Deps) :
    ∀ (l1 l2 : List Str) (m1 m2 : CredMap), m1.keys = m2.keys →
      l1.map (fun ev => (credentialOf d ev).map Prod.fst) =
        l2.map (fun ev => (credentialOf d ev).map Prod.fst) →
      (l1.foldl (collectStep d) m1).keys = (l2.foldl (collectStep d) m2).keys := by
  intro l1
  induction l1 with
  | nil =>
    intro l2 m1 m2 hm hl
    cases l2 with
    | nil => exact hm
    | cons b bs => simp at hl
  | cons a as ih =>
    intro l2 m1 m2 hm hl
    cases l2 with
    | nil => simp at hl
    | cons b bs =>
      simp only [List.map_cons, List.cons.injEq] at hl
      obtain ⟨hab, hrest⟩ := hl
      rw [List.foldl_cons, List.foldl_cons]
      apply ih bs _ _ _ hrest
      rw [collectStep_eq, collectStep_eq]
      cases ha : credentialOf d a with
      | none =>
        cases hb : credentialOf d b with
        | none => exact hm
        | some q => rw [ha, hb] at hab; simp at hab
      | some p =>
        cases hb : credentialOf d b with
        | none => rw [ha, hb] at hab; simp at hab
        | some q =>
          obtain ⟨k1, v1⟩ := p
          obtain ⟨k2, v2⟩ := q
          rw [ha, hb] at hab
          simp only [Option.map_some', Option.some.injEq] at hab
          subst hab
          simp only [keys_set, hm]

theorem escapedForm_append (a b : Str) :
    escapedForm (a ++ '=' :: b) = escapedForm a ++ '=' :: escapedForm b := by
  have e1 : "_".toList = ['_'] := rfl
  have e2 : ".".toList = ['.'] := rfl
  simp only [escapedForm, e1, e2, ReplaceAll_single, List.map_append, List.map_cons]
  simp

/-- The two spellings of an entry for `H`, escaped and literal, stand for
credentials with the same key. -/
theorem credentialOf_escaped_key (d : Deps) (H v : Str) (hH : '_' ∉ H) :
    (credentialOf d (envPrefix ++ escapedForm H ++ '=' :: v)).map Prod.fst =
      (credentialOf d (envPrefix ++ H ++ '=' :: v)).map Prod.fst := by
  by_cases hEq : '=' ∈ H
  · obtain ⟨a, b, rfl, ha⟩ := split_first '=' H hEq
    have hau : '_' ∉ a := fun e => hH (List.mem_append_left _ e)
    have hea : '=' ∉ escapedForm a := escapedForm_not_mem_eq a ha
    have h1 : envPrefix ++ escapedForm (a ++ '=' :: b) ++ '=' :: v =
        envPrefix ++ escapedForm a ++ '=' :: (escapedForm b ++ '=' :: v) := by
      rw [escapedForm_append]; simp
    have h2 : envPrefix ++ (a ++ '=' :: b) ++ '=' :: v =
        envPrefix ++ a ++ '=' :: (b ++ '=' :: v) := by simp
    rw [h1, h2, credentialOf_split d _ _ hea, credentialOf_split d _ _ ha]
    have hcan : canonicalHost d (escapedForm a) = canonicalHost d a := by
      simp only [canonicalHost]
      rw [unescape_escapedForm a hau, unescape_self a hau]
    rw [hcan]
    cases canonicalHost d a <;> rfl
  · have hEsc : '=' ∉ escapedForm H := escapedForm_not_mem_eq H hEq
    rw [credentialOf_split d _ v hEsc, credentialOf_split d _ v hEq]
    have hcan : canonicalHost d (escapedForm H) = canonicalHost d H := by
      simp only [canonicalHost]
      rw [unescape_escapedForm H hH, unescape_self H hH]
    rw [hcan]

/-! ## The JSON encoder -/

theorem hexValue_hex (k : Nat) (hk : k < 16) : json.hexValue (json.hex.getD k '0') = some k := by
  interval_cases k <;> rfl

theorem hex_ne_newline (k : Nat) (hk : k < 16) : json.hex.getD k '0' ≠ '\n' := by
  interval_cases k <;> decide

theorem readChars_short (x ch : Char) (rest : Str) (hx : x ≠ 'u')
    (he : json.readEscape x = some ch) :
    json.readChars ('\\' :: x :: rest) =
      match json.readChars rest with
      | some (s, after) => some (ch :: s, after)
      | none => none := by
  rw [json.readChars.eq_def]
  simp only [hx, he, if_false]
  have h0 : ¬ ('\\' = '"') := by decide
  simp only [h0, if_false, if_true]
  cases json.readChars rest with
  | none => rfl
  | some p => rfl

theorem readChars_plain (c : Char) (rest : Str) (h1 : c ≠ '"') (h2 : c ≠ '\\')
    (h3 : ¬ c.toNat < 32) :
    json.readChars (c :: rest) =
      match json.readChars rest with
      | some (s, after) => some (c :: s, after)
      | none => none := by
  rw [json.readChars.eq_def]
  simp only [h1, h2, h3, if_false]

theorem readChars_hex (h1 h2 h3 h4 : Char) (a b c e : Nat) (rest : Str)
    (e1 : json.hexValue h1 = some a) (e2 : json.hexValue h2 = some b)
    (e3 : json.hexValue h3 = some c) (e4 : json.hexValue h4 = some e)
    (hs : ¬ (55296 ≤ ((a * 16 + b) * 16 + c) * 16 + e ∧
      ((a * 16 + b) * 16 + c) * 16 + e ≤ 57343)) :
    json.readChars ('\\' :: 'u' :: h1 :: h2 :: h3 :: h4 :: rest) =
      match json.readChars rest with
      | some (s, after) => some (Char.ofNat (((a * 16 + b) * 16 + c) * 16 + e) :: s, after)
      | none => none := by
  rw [json.readChars.eq_def]
  have h0 : ¬ ('\\' = '"') := by decide
  simp only [h0, if_false, if_true, e1, e2, e3, e4]
  cases json.readChars rest with
  | none => rfl
  | some p => simp only [hs, if_false]

/-- Reading back what the encoder writes for one character. -/
theorem readChars_appendRune (b : Bool) (c : Char) (rest : Str) :
    json.readChars (json.appendRune b c ++ rest) =
      match json.readChars rest with
      | some (s, after) => some (c :: s, after)
      | none => none := by
  unfold json.appendRune
  split_ifs with h1 h2 h3 h4 h5 h6 h7 h8
  · rcases h1 with rfl | rfl
    · exact readChars_short _ _ rest (by decide) rfl
    · exact readChars_short _ _ rest (by decide) rfl
  · obtain ⟨_, rfl⟩ := h2
    exact readChars_short _ _ rest (by decide) rfl
  · obtain ⟨_, rfl⟩ := h3
    exact readChars_short _ _ rest (by decide) rfl
  · subst h4; exact readChars_short _ _ rest (by decide) rfl
  · subst h5; exact readChars_short _ _ rest (by decide) rfl
  · subst h6; exact readChars_short _ _ rest (by decide) rfl
  · have hlt : c.toNat < 256 := by
      rcases h7 with h | rfl | rfl | rfl
      · omega
      · decide
      · decide
      · decide
    have hd : c.toNat / 16 < 16 := by omega
    have hm : c.toNat % 16 < 16 := by omega
    have hz : json.hexValue '0' = some 0 := rfl
    have := readChars_hex '0' '0' _ _ 0 0 _ _ rest hz hz (hexValue_hex _ hd) (hexValue_hex _ hm)
      (by omega)
    have hn : ((0 * 16 + 0) * 16 + c.toNat / 16) * 16 + c.toNat % 16 = c.toNat := by omega
    rw [hn, Char.ofNat_toNat] at this
    exact this
  · rcases h8 with rfl | rfl
    · exact readChars_hex '2' '0' '2' _ 2 0 2 8 rest rfl rfl rfl rfl (by decide)
    · exact readChars_hex '2' '0' '2' _ 2 0 2 9 rest rfl rfl rfl rfl (by decide)
  · have hq : c ≠ '"' := fun e => h1 (Or.inr e)
    have hb : c ≠ '\\' := fun e => h1 (Or.inl e)
    have hlt : ¬ c.toNat < 32 := fun e => h7 (Or.inl e)
    exact readChars_plain c rest hq hb hlt

/-- Reading back an encoded string. -/
theorem readChars_appendString (b : Bool) (src after : Str) :
    json.readChars (src.flatMap (json.appendRune b) ++ '"' :: after) = some (src, after) := by
  induction src with
  | nil => rw [json.readChars.eq_def]; simp
  | cons c cs ih =>
    rw [List.flatMap_cons, List.append_assoc, readChars_appendRune, ih]

theorem Marshal_eq (b : Bool) (T : Str) :
    json.Marshal b { Token := T } =
      .ok ("\x7b\"token\":".toList ++ json.appendString b T ++ "\x7d".toList) := by
  cases b <;> simp [json.Marshal, resultJSON.jsonFields, json.structFields, json.appendString] <;>
    rfl

/-- The output of `json.Marshal` reads back as the object with the one member
`token` whose value is the token. -/
theorem readObject_Marshal (b : Bool) (T : Str) :
    json.readObject ("\x7b\"token\":".toList ++ json.appendString b T ++ "\x7d".toList) =
      some ("token".toList, T) := by
  have h1 : "\x7b\"token\":".toList ++ json.appendString b T ++ "\x7d".toList =
      '\x7b' :: '"' :: ("token".toList.flatMap (json.appendRune b) ++
        '"' :: (':' :: '"' :: (T.flatMap (json.appendRune b) ++ '"' :: ['\x7d']))) := by
    cases b <;> simp [json.appendString] <;> rfl
  rw [h1, json.readObject]
  simp only [true_and, and_self, if_true, readChars_appendString]

theorem newline_not_mem_appendRune (b : Bool) (c : Char) : '\n' ∉ json.appendRune b c := by
  unfold json.appendRune
  split_ifs with h1 h2 h3 h4 h5 h6 h7 h8
  · rcases h1 with rfl | rfl <;> decide
  · decide
  · decide
  · decide
  · decide
  · decide
  · have hlt : c.toNat < 256 := by
      rcases h7 with h | rfl | rfl | rfl
      · omega
      · decide
      · decide
      · decide
    have hd : c.toNat / 16 < 16 := by omega
    have hm : c.toNat % 16 < 16 := by omega
    have n1 := hex_ne_newline _ hd
    have n2 := hex_ne_newline _ hm
    simp only [List.mem_cons, List.mem_singleton, List.not_mem_nil, or_false, not_or]
    exact ⟨by decide, by decide, by decide, by decide, fun e => n1 e.symm, fun e => n2 e.symm⟩
  · rcases h8 with rfl | rfl <;> decide
  · simp only [List.mem_singleton]
    exact fun e => h4 e.symm

theorem newline_not_mem_appendString (b : Bool) (T : Str) : '\n' ∉ json.appendString b T := by
  unfold json.appendString
  intro hmem
  rcases List.mem_cons.1 hmem with h | h
  · exact absurd h (by decide)
  · rcases List.mem_append.1 h with h | h
    · obtain ⟨c, _, hc⟩ := List.mem_flatMap.1 h
      exact newline_not_mem_appendRune b c hc
    · exact absurd h (by decide)

theorem appendRune_plain (b : Bool) (c : Char) (h : isPlainJSONChar c = true) :
    json.appendRune b c = [c] := by
  simp only [isPlainJSONChar, Bool.and_eq_true, decide_eq_true_eq, bne_iff_ne, ne_eq] at h
  obtain ⟨⟨⟨⟨⟨⟨hlo, hhi⟩, hq⟩, hb⟩, hl⟩, hg⟩, ha⟩ := h
  have c1 : ¬ (c = '\\' ∨ c = '"') := by
    rintro (e | e)
    · exact hb e
    · exact hq e
  have c2 : ¬ (b = true ∧ c = '\x08') := by
    rintro ⟨_, rfl⟩; exact absurd hlo (by decide)
  have c3 : ¬ (b = true ∧ c = '\x0c') := by
    rintro ⟨_, rfl⟩; exact absurd hlo (by decide)
  have c4 : ¬ c = '\n' := by rintro rfl; exact absurd hlo (by decide)
  have c5 : ¬ c = '\r' := by rintro rfl; exact absurd hlo (by decide)
  have c6 : ¬ c = '\t' := by rintro rfl; exact absurd hlo (by decide)
  have c7 : ¬ (c.toNat < 32 ∨ c = '<' ∨ c = '>' ∨ c = '&') := by
    rintro (e | e | e | e)
    · omega
    · exact hl e
    · exact hg e
    · exact ha e
  have c8 : ¬ (c = '\u2028' ∨ c = '\u2029') := by
    rintro (rfl | rfl) <;> exact absurd hhi (by decide)
  simp only [json.appendRune, c1, c2, c3, c4, c5, c6, c7, c8, if_false]

theorem appendString_plain (b : Bool) (T : Str) (h : T.all isPlainJSONChar = true) :
    json.appendString b T = '"' :: (T ++ ['"']) := by
  have hflat : T.flatMap (json.appendRune b) = T := by
    induction T with
    | nil => rfl
    | cons c cs ih =>
      simp only [List.all_cons, Bool.and_eq_true] at h
      rw [List.flatMap_cons, appendRune_plain b c h.1, ih h.2]
      rfl
  rw [json.appendString, hflat]

/-! ## The claims -/

/-- C1: the keys of the map returned by `collectCredentialsFromEnv` are exactly
the canonical host names `ForComparison(ForDisplay(replaceAll(rest, "_", ".")))`
of the entries `TF_TOKEN_` + `rest` + `=` + value (with `=` not in `rest`)
whose canonicalization succeeds; an entry whose name lacks the prefix can be
removed without changing the result; and when one entry alone qualifies for a
key, the key maps to that entry's value. -/
theorem collect_keys_exact (d : Deps) (environ : List Str) :
    (∀ h : Hostname, h ∈ (collectCredentialsFromEnv d environ).keys ↔
        ∃ ev ∈ environ, ∃ rest value : Str,
          ev = envPrefix ++ rest ++ '=' :: value ∧ '=' ∉ rest ∧
          d.ForComparison (d.ForDisplay (strings.ReplaceAll rest "_".toList ".".toList))
            = .ok h) ∧
    (∀ (pre post : List Str) (ev : Str), ¬ envPrefix <+: entryName ev →
        collectCredentialsFromEnv d (pre ++ ev :: post) =
          collectCredentialsFromEnv d (pre ++ post)) ∧
    (∀ (h : Hostname) (ev value : Str), ev ∈ environ → Qualifies d ev h value →
        (∀ ev2 ∈ environ, ∀ value2, Qualifies d ev2 h value2 → ev2 = ev) →
        (collectCredentialsFromEnv d environ).get h = some value) := by
  refine ⟨?_, ?_, ?_⟩
  · intro h
    unfold collectCredentialsFromEnv
    rw [foldl_mem_keys]
    simp only [CredMap.empty, CredMap.keys, List.map_nil, List.not_mem_nil, false_or]
    constructor
    · rintro ⟨ev, hev, v, hc⟩
      obtain ⟨rest, h1, h2, h3⟩ := (credentialOf_eq_some_iff d ev h v).1 hc
      exact ⟨ev, hev, rest, v, h1, h2, h3⟩
    · rintro ⟨ev, hev, rest, v, h1, h2, h3⟩
      exact ⟨ev, hev, v, (credentialOf_eq_some_iff d ev h v).2 ⟨rest, h1, h2, h3⟩⟩
  · intro pre post ev hp
    exact collect_drop d pre post ev (credentialOf_no_envPrefix d ev hp)
  · intro h ev value hmem hq huniq
    obtain ⟨pre, post, rfl, hpost⟩ := split_last ev environ hmem
    apply collect_get_last d pre post ev h value ((credentialOf_eq_some_iff d ev h value).2 hq)
    intro e he w hc
    have heq : e = ev :=
      huniq e (by simp [he]) w ((credentialOf_eq_some_iff d e h w).1 hc)
    exact hpost (heq ▸ he)

theorem collect_keys_exact_witness :
    collectCredentialsFromEnv asciiDeps
        ["TF_TOKEN_app_terraform_io=abc123".toList, "TF_TOKEN_example_org=xyz789".toList] =
      [("example.org".toList, "xyz789".toList), ("app.terraform.io".toList, "abc123".toList)] ∧
    ("app.terraform.io".toList ∈ (collectCredentialsFromEnv asciiDeps
        ["TF_TOKEN_app_terraform_io=abc123".toList,
          "TF_TOKEN_example_org=xyz789".toList]).keys ↔
      ∃ ev ∈ ["TF_TOKEN_app_terraform_io=abc123".toList, "TF_TOKEN_example_org=xyz789".toList],
        ∃ rest value : Str, ev = envPrefix ++ rest ++ '=' :: value ∧ '=' ∉ rest ∧
          asciiDeps.ForComparison
            (asciiDeps.ForDisplay (strings.ReplaceAll rest "_".toList ".".toList))
              = .ok "app.terraform.io".toList) ∧
    collectCredentialsFromEnv asciiDeps
        (["TF_TOKEN_app_terraform_io=abc123".toList] ++ "tf_token_example_org=xyz789".toList
          :: ["PATH=/usr/bin".toList]) =
      collectCredentialsFromEnv asciiDeps
        (["TF_TOKEN_app_terraform_io=abc123".toList] ++ ["PATH=/usr/bin".toList]) ∧
    (collectCredentialsFromEnv asciiDeps
        ["TF_TOKEN_app_terraform_io=abc123".toList, "TF_TOKEN_example_org=xyz789".toList]).get
      "example.org".toList = some "xyz789".toList :=
  ⟨by decide,
   (collect_keys_exact asciiDeps
      ["TF_TOKEN_app_terraform_io=abc123".toList, "TF_TOKEN_example_org=xyz789".toList]).1
      "app.terraform.io".toList,
   (collect_keys_exact asciiDeps []).2.1 ["TF_TOKEN_app_terraform_io=abc123".toList]
      ["PATH=/usr/bin".toList] "tf_token_example_org=xyz789".toList (by decide),
   by decide⟩

/-- C2: when the map built from the environment holds the token `T` under the
key `H`, the run of `get H` (further arguments ignored) exits with code 0,
writes nothing to standard error, and writes to standard output the result of
`json.Marshal` at `resultJSON{T}` followed by one newline.  That result is the
text `{"token":` + the JSON string of `T` + `}`: it reads back as the object
with the single member `token` whose value is `T`, it holds no newline, and
for a token of printable ASCII characters that need no escape the JSON string
is the token between quotes. -/
theorem get_prints_token (d : Deps) (environ : List Str) (prog H T : Str)
    (more : List Str)
    (hkey : (collectCredentialsFromEnv d environ).get H = some T) :
    main d environ (prog :: "get".toList :: H :: more) =
      some { stdout := "\x7b\"token\":".toList ++ json.appendString d.jsonShortEscapes T ++
               "\x7d".toList ++ "\n".toList,
             stderr := [], exitCode := 0 } ∧
    json.Marshal d.jsonShortEscapes { Token := T } =
      .ok ("\x7b\"token\":".toList ++ json.appendString d.jsonShortEscapes T ++
        "\x7d".toList) ∧
    json.readObject ("\x7b\"token\":".toList ++ json.appendString d.jsonShortEscapes T ++
        "\x7d".toList) = some ("token".toList, T) ∧
    '\n' ∉ "\x7b\"token\":".toList ++ json.appendString d.jsonShortEscapes T ++
        "\x7d".toList ∧
    (T.all isPlainJSONChar = true →
      json.appendString d.jsonShortEscapes T = '"' :: (T ++ ['"'])) := by
  have hm := Marshal_eq d.jsonShortEscapes T
  refine ⟨?_, hm, readObject_Marshal d.jsonShortEscapes T, ?_,
    appendString_plain d.jsonShortEscapes T⟩
  · simp only [main, hkey, hm]
    rfl
  · intro hmem
    rcases List.mem_append.1 hmem with h1 | h1
    · rcases List.mem_append.1 h1 with h2 | h2
      · exact absurd h2 (by decide)
      · exact newline_not_mem_appendString d.jsonShortEscapes T h2
    · exact absurd h1 (by decide)

theorem get_prints_token_witness :
    (collectCredentialsFromEnv asciiDeps ["TF_TOKEN_app_terraform_io=abc123".toList]).get
        "app.terraform.io".toList = some "abc123".toList ∧
    main asciiDeps ["TF_TOKEN_app_terraform_io=abc123".toList]
        ["terraform-credentials-env".toList, "get".toList, "app.terraform.io".toList] =
      some { stdout := "\x7b\"token\":\"abc123\"\x7d\n".toList, stderr := [], exitCode := 0 } ∧
    main asciiDeps ["TF_TOKEN_example_org=a\"b<c=d\\e".toList]
        ["terraform-credentials-env".toList, "get".toList, "example.org".toList,
         "ignored".toList] =
      some { stdout := "\x7b\"token\":\"a\\\"b\\u003cc=d\\\\e\"\x7d\n".toList, stderr := [],
             exitCode := 0 } :=
  ⟨by decide,
   (get_prints_token asciiDeps ["TF_TOKEN_app_terraform_io=abc123".toList]
     "terraform-credentials-env".toList "app.terraform.io".toList "abc123".toList
     [] (by decide)).1,
   (get_prints_token asciiDeps ["TF_TOKEN_example_org=a\"b<c=d\\e".toList]
     "terraform-credentials-env".toList "example.org".toList "a\"b<c=d\\e".toList
     ["ignored".toList] (by decide)).1⟩

/-- C3, as stated, fails: the request `EXAMPLE.ORG` canonicalizes to
`example.org`, which is a key of the map built from
`TF_TOKEN_example_org=abc123`, and yet `get EXAMPLE.ORG` reports that there are
no credentials and exits with code 1. -/
theorem get_noncanonical_request_not_found :
    ToCanonicalForm asciiDeps "EXAMPLE.ORG".toList = .ok "example.org".toList ∧
    asciiDeps.ForComparison "EXAMPLE.ORG".toList = .ok "example.org".toList ∧
    (collectCredentialsFromEnv asciiDeps ["TF_TOKEN_example_org=abc123".toList]).get
        "example.org".toList = some "abc123".toList ∧
    main asciiDeps ["TF_TOKEN_example_org=abc123".toList]
        ["terraform-credentials-env".toList, "get".toList, "EXAMPLE.ORG".toList] =
      some { stdout := [],
             stderr :=
               "No credentials for example.org are defined via environment variables.\n".toList,
             exitCode := 1 } :=
  ⟨rfl, rfl, by decide, by decide⟩

/-- C3, amended: `get` does not canonicalize the requested host name; the
request `r` itself is the key that is looked up.  The run prints the token
stored under `r` when `r` is a key of the map and reports not-found when it is
not; a token is found only when `r` is the canonical host name of an entry of
the environment, so a request that is the canonical form of no name is never
found. -/
theorem get_looks_up_verbatim (d : Deps) (environ : List Str) (prog r : Str)
    (more : List Str) :
    (main d environ (prog :: "get".toList :: r :: more) =
      match (collectCredentialsFromEnv d environ).get r with
      | none => some { stdout := [], stderr := notFoundText (d.ForDisplay r), exitCode := 1 }
      | some token =>
        match json.Marshal d.jsonShortEscapes { Token := token } with
        | .ok encoded => some { stdout := encoded ++ "\n".toList, stderr := [], exitCode := 0 }
        | .error err => some { stdout := [], stderr := serializeFailedText err, exitCode := 1 }) ∧
    (∀ token, (collectCredentialsFromEnv d environ).get r = some token →
      ∃ ev ∈ environ, Qualifies d ev r token) ∧
    ((∀ x, d.ForComparison x ≠ .ok r) →
      main d environ (prog :: "get".toList :: r :: more) =
        some { stdout := [], stderr := notFoundText (d.ForDisplay r), exitCode := 1 }) := by
  have hfound : ∀ token, (collectCredentialsFromEnv d environ).get r = some token →
      ∃ ev ∈ environ, Qualifies d ev r token := by
    intro token ht
    rcases foldl_get_some d r token environ CredMap.empty ht with h1 | ⟨ev, hev, hc⟩
    · simp [CredMap.empty, CredMap.get] at h1
    · exact ⟨ev, hev, (credentialOf_eq_some_iff d ev r token).1 hc⟩
  refine ⟨?_, hfound, ?_⟩
  · cases hg : (collectCredentialsFromEnv d environ).get r with
    | none => simp [main, hg]
    | some token =>
      cases hm : json.Marshal d.jsonShortEscapes { Token := token } <;> simp [main, hg, hm]
  · intro hnot
    cases hg : (collectCredentialsFromEnv d environ).get r with
    | none => simp [main, hg]
    | some token =>
      obtain ⟨ev, _, rest, _, _, hcan⟩ := hfound token hg
      exact absurd hcan (hnot _)

theorem get_looks_up_verbatim_witness :
    (∀ x, asciiDeps.ForComparison x ≠ .ok "EXAMPLE.ORG".toList) ∧
    main asciiDeps ["TF_TOKEN_example_org=abc123".toList]
        ["terraform-credentials-env".toList, "get".toList, "EXAMPLE.ORG".toList] =
      some { stdout := [], stderr := notFoundText (asciiDeps.ForDisplay "EXAMPLE.ORG".toList),
             exitCode := 1 } :=
  ⟨fun x => asciiDeps_ForComparison_lower x 'E' "XAMPLE.ORG".toList (by decide),
   (get_looks_up_verbatim asciiDeps ["TF_TOKEN_example_org=abc123".toList]
      "terraform-credentials-env".toList "EXAMPLE.ORG".toList []).2.2
      (fun x => asciiDeps_ForComparison_lower x 'E' "XAMPLE.ORG".toList (by decide))⟩

/-- C4: for a host name `H` without underscore, the underscore-to-dot
substitution applied to the escaped form of `H` gives `H` back, so
`ToCanonicalForm(ToDisplayForm(escaped-form(H)))` equals `ToCanonicalForm(H)`;
the entries `TF_TOKEN_` + escaped-form(H) + `=` + v and `TF_TOKEN_` + H + `=` +
v, put at the same place of any environment, give maps with the same keys
(both entries are stored under the same key, or both are skipped); and when
`H` holds no `=` either, the two maps are equal. -/
theorem escaping_round_trips (d : Deps) (H : Str) (hH : '_' ∉ H) :
    ToDisplayForm (escapedForm H) = H ∧
    ToCanonicalForm d (ToDisplayForm (escapedForm H)) = ToCanonicalForm d H ∧
    (∀ (v : Str) (pre post : List Str),
      (collectCredentialsFromEnv d
          (pre ++ (envPrefix ++ escapedForm H ++ '=' :: v) :: post)).keys =
        (collectCredentialsFromEnv d (pre ++ (envPrefix ++ H ++ '=' :: v) :: post)).keys) ∧
    ('=' ∉ H → ∀ (v : Str) (pre post : List Str),
      collectCredentialsFromEnv d (pre ++ (envPrefix ++ escapedForm H ++ '=' :: v) :: post) =
        collectCredentialsFromEnv d (pre ++ (envPrefix ++ H ++ '=' :: v) :: post) ∧
      credentialOf d (envPrefix ++ escapedForm H ++ '=' :: v) =
        credentialOf d (envPrefix ++ H ++ '=' :: v)) := by
  have hround : ToDisplayForm (escapedForm H) = H := unescape_escapedForm H hH
  have hself : strings.ReplaceAll H "_".toList ".".toList = H := unescape_self H hH
  refine ⟨hround, by rw [hround], ?_, ?_⟩
  · intro v pre post
    unfold collectCredentialsFromEnv
    apply foldl_keys_congr d _ _ _ _ rfl
    simp only [List.map_append, List.map_cons, credentialOf_escaped_key d H v hH]
  intro hEq v pre post
  have hEsc : '=' ∉ escapedForm H := escapedForm_not_mem_eq H hEq
  have hcred : credentialOf d (envPrefix ++ escapedForm H ++ '=' :: v) =
      credentialOf d (envPrefix ++ H ++ '=' :: v) := by
    rw [credentialOf_split d _ v hEsc, credentialOf_split d _ v hEq]
    simp only [canonicalHost]
    rw [unescape_escapedForm H hH, hself]
  refine ⟨?_, hcred⟩
  have hstep : ∀ m, collectStep d m (envPrefix ++ escapedForm H ++ '=' :: v) =
      collectStep d m (envPrefix ++ H ++ '=' :: v) := by
    intro m
    rw [collectStep_eq, collectStep_eq, hcred]
  simp only [collectCredentialsFromEnv, List.foldl_append, List.foldl_cons, hstep]

theorem escaping_round_trips_witness :
    '_' ∉ "app.terraform.io".toList ∧
    escapedForm "app.terraform.io".toList = "app_terraform_io".toList ∧
    ToDisplayForm (escapedForm "app.terraform.io".toList) = "app.terraform.io".toList ∧
    ToCanonicalForm asciiDeps (ToDisplayForm (escapedForm "app.terraform.io".toList)) =
      ToCanonicalForm asciiDeps "app.terraform.io".toList ∧
    collectCredentialsFromEnv asciiDeps
        ([] ++ (envPrefix ++ escapedForm "app.terraform.io".toList ++ '=' :: "abc123".toList)
          :: []) =
      collectCredentialsFromEnv asciiDeps
        ([] ++ (envPrefix ++ "app.terraform.io".toList ++ '=' :: "abc123".toList) :: []) ∧
    collectCredentialsFromEnv asciiDeps ["TF_TOKEN_app.terraform.io=abc123".toList] =
      [("app.terraform.io".toList, "abc123".toList)] :=
  ⟨by decide, by decide,
   (escaping_round_trips asciiDeps "app.terraform.io".toList (by decide)).1,
   (escaping_round_trips asciiDeps "app.terraform.io".toList (by decide)).2.1,
   ((escaping_round_trips asciiDeps "app.terraform.io".toList (by decide)).2.2.2
      (by decide) "abc123".toList [] []).1,
   by decide⟩

/-- C5: the scan never fails, and the map it returns is the map obtained from
the same list with every invalid entry (an entry with the `TF_TOKEN_` prefix
whose decoded host name fails canonicalization) removed; an invalid entry can
be removed from between any entries before and after it. -/
theorem invalid_entries_skipped (d : Deps) (environ : List Str) :
    collectCredentialsFromEnv d environ =
      collectCredentialsFromEnv d (environ.filter (fun ev => !isInvalidEntry d ev)) ∧
    (∀ (pre post : List Str) (ev : Str), isInvalidEntry d ev = true →
      collectCredentialsFromEnv d (pre ++ ev :: post) =
        collectCredentialsFromEnv d (pre ++ post)) := by
  refine ⟨?_, ?_⟩
  · unfold collectCredentialsFromEnv
    rw [foldl_filter d (fun ev => !isInvalidEntry d ev)]
    intro ev hev
    apply credentialOf_invalid
    simpa using hev
  · intro pre post ev hev
    exact collect_drop d pre post ev (credentialOf_invalid d ev hev)

theorem invalid_entries_skipped_witness :
    isInvalidEntry asciiDeps "TF_TOKEN_bad_host_name_with_space =oops".toList = true ∧
    collectCredentialsFromEnv asciiDeps ["TF_TOKEN_bad_host_name_with_space =oops".toList]
      = [] ∧
    collectCredentialsFromEnv asciiDeps
        ["TF_TOKEN_app_terraform_io=abc123".toList,
         "TF_TOKEN_bad_host_name_with_space =oops".toList,
         "TF_TOKEN_example_org=xyz789".toList] =
      collectCredentialsFromEnv asciiDeps
        ["TF_TOKEN_app_terraform_io=abc123".toList, "TF_TOKEN_example_org=xyz789".toList] :=
  ⟨by decide, by decide,
   (invalid_entries_skipped asciiDeps []).2
     ["TF_TOKEN_app_terraform_io=abc123".toList] ["TF_TOKEN_example_org=xyz789".toList]
     "TF_TOKEN_bad_host_name_with_space =oops".toList (by decide)⟩

/-- C6: when the requested host `h` is not a key of the map built from the
environment, the run of `get h` (further arguments ignored) exits with code 1,
writes nothing to standard output, and writes to standard error one line that
contains `ForDisplay(h)`. -/
theorem get_missing_host (d : Deps) (environ : List Str) (prog h : Str) (more : List Str)
    (hkey : h ∉ (collectCredentialsFromEnv d environ).keys) :
    main d environ (prog :: "get".toList :: h :: more) =
      some { stdout := [],
             stderr := "No credentials for ".toList ++ d.ForDisplay h ++
               " are defined via environment variables.\n".toList,
             exitCode := 1 } ∧
    d.ForDisplay h <:+: notFoundText (d.ForDisplay h) := by
  have hg := (not_mem_keys_iff_get _ h).1 hkey
  refine ⟨by simp [main, hg, notFoundText], ?_⟩
  exact ⟨"No credentials for ".toList, " are defined via environment variables.\n".toList, rfl⟩

theorem get_missing_host_witness :
    "unknown.example.com".toList ∉
      (collectCredentialsFromEnv asciiDeps ["TF_TOKEN_app_terraform_io=abc123".toList]).keys ∧
    asciiDeps.ForDisplay "unknown.example.com".toList = "unknown.example.com".toList ∧
    main asciiDeps ["TF_TOKEN_app_terraform_io=abc123".toList]
        ["terraform-credentials-env".toList, "get".toList, "unknown.example.com".toList] =
      some { stdout := [],
             stderr := ("No credentials for unknown.example.com are defined via " ++
               "environment variables.\n").toList,
             exitCode := 1 } :=
  ⟨by decide, by decide,
   (get_missing_host asciiDeps ["TF_TOKEN_app_terraform_io=abc123".toList]
      "terraform-credentials-env".toList "unknown.example.com".toList [] (by decide)).1⟩

/-- C7: an entry is split at its first `=`.  For an entry `name` + `=` +
`value` with no `=` in `name`, the scan treats `name` as the name and the whole
of `value`, which may hold further `=` or be empty, as the token: appended to
an environment, the entry stores `value` under the canonical host name of its
name, or changes nothing when the name lacks the prefix or does not
canonicalize.  An entry without any `=` is skipped wherever it stands. -/
theorem entry_split_at_first_eq (d : Deps) (environ : List Str) :
    (∀ name value : Str, '=' ∉ name →
      collectCredentialsFromEnv d (environ ++ [name ++ '=' :: value]) =
        if envPrefix <+: name then
          match d.ForComparison (d.ForDisplay
            (strings.ReplaceAll (name.drop envPrefix.length) "_".toList ".".toList)) with
          | .ok h => (collectCredentialsFromEnv d environ).set h value
          | .error _ => collectCredentialsFromEnv d environ
        else collectCredentialsFromEnv d environ) ∧
    (∀ (rest value : Str) (h : Hostname), '=' ∉ rest →
      d.ForComparison (d.ForDisplay (strings.ReplaceAll rest "_".toList ".".toList)) = .ok h →
      (collectCredentialsFromEnv d (environ ++ [envPrefix ++ rest ++ '=' :: value])).get h =
        some value) ∧
    (∀ (pre post : List Str) (ev : Str), '=' ∉ ev →
      collectCredentialsFromEnv d (pre ++ ev :: post) =
        collectCredentialsFromEnv d (pre ++ post)) := by
  refine ⟨?_, ?_, ?_⟩
  · intro name value hname
    rw [collect_snoc, collectStep_split d _ name value hname]
    rfl
  · intro rest value h hrest hcan
    have hc : credentialOf d (envPrefix ++ rest ++ '=' :: value) = some (h, value) :=
      (credentialOf_eq_some_iff d _ h value).2 ⟨rest, rfl, hrest, hcan⟩
    rw [collect_snoc, collectStep_eq, hc]
    exact get_set_self _ h value
  · intro pre post ev hev
    exact collect_drop d pre post ev (credentialOf_no_eq d ev hev)

theorem entry_split_at_first_eq_witness :
    collectCredentialsFromEnv asciiDeps ["TF_TOKEN_example_org=ab=cd==".toList] =
      [("example.org".toList, "ab=cd==".toList)] ∧
    (collectCredentialsFromEnv asciiDeps
        ([] ++ [envPrefix ++ "example_org".toList ++ '=' :: "ab=cd==".toList])).get
      "example.org".toList = some "ab=cd==".toList ∧
    (collectCredentialsFromEnv asciiDeps
        ([] ++ [envPrefix ++ "example_org".toList ++ '=' :: []])).get
      "example.org".toList = some [] ∧
    collectCredentialsFromEnv asciiDeps ["TF_TOKEN_example_org=".toList] =
      [("example.org".toList, [])] ∧
    collectCredentialsFromEnv asciiDeps
        (["TF_TOKEN_app_terraform_io=abc123".toList] ++ "TF_TOKEN_example_org".toList :: []) =
      collectCredentialsFromEnv asciiDeps (["TF_TOKEN_app_terraform_io=abc123".toList] ++ []) :=
  ⟨by decide,
   (entry_split_at_first_eq asciiDeps []).2.1 "example_org".toList "ab=cd==".toList
     "example.org".toList (by decide) rfl,
   (entry_split_at_first_eq asciiDeps []).2.1 "example_org".toList []
     "example.org".toList (by decide) rfl,
   by decide,
   (entry_split_at_first_eq asciiDeps []).2.2 ["TF_TOKEN_app_terraform_io=abc123".toList] []
     "TF_TOKEN_example_org".toList (by decide)⟩

/-- C8: the last qualifying entry wins.  Every key `h` of the map has a last
entry of the environment that qualifies for `h`, and the map holds that
entry's value under `h`; whenever an entry qualifying for `h` is followed by
no other entry qualifying for `h`, the map holds its value under `h`; and
scanning one more entry `ev` overwrites the key of `ev` with the value of `ev`
when `ev` qualifies and changes nothing otherwise. -/
theorem last_entry_wins (d : Deps) (environ : List Str) :
    (∀ h ∈ (collectCredentialsFromEnv d environ).keys,
      ∃ (pre : List Str) (ev : Str) (post : List Str) (value : Str),
        environ = pre ++ ev :: post ∧ Qualifies d ev h value ∧
        (∀ e ∈ post, ∀ w, ¬ Qualifies d e h w) ∧
        (collectCredentialsFromEnv d environ).get h = some value) ∧
    (∀ (pre post : List Str) (ev : Str) (h : Hostname) (value : Str),
      environ = pre ++ ev :: post → Qualifies d ev h value →
      (∀ e ∈ post, ∀ w, ¬ Qualifies d e h w) →
      (collectCredentialsFromEnv d environ).get h = some value) ∧
    (∀ (ev : Str) (h : Hostname) (value : Str), Qualifies d ev h value →
      collectCredentialsFromEnv d (environ ++ [ev]) =
        (collectCredentialsFromEnv d environ).set h value) ∧
    (∀ ev : Str, (∀ h value, ¬ Qualifies d ev h value) →
      collectCredentialsFromEnv d (environ ++ [ev]) = collectCredentialsFromEnv d environ) := by
  have hlast : ∀ (pre post : List Str) (ev : Str) (h : Hostname) (value : Str),
      environ = pre ++ ev :: post → Qualifies d ev h value →
      (∀ e ∈ post, ∀ w, ¬ Qualifies d e h w) →
      (collectCredentialsFromEnv d environ).get h = some value := by
    intro pre post ev h value henv hq hpost
    subst henv
    apply collect_get_last d pre post ev h value ((credentialOf_eq_some_iff d ev h value).2 hq)
    intro e he w hc
    exact hpost e he w ((credentialOf_eq_some_iff d e h w).1 hc)
  refine ⟨?_, hlast, ?_, ?_⟩
  · intro h hkey
    have hex : ∃ ev ∈ environ, ∃ v, credentialOf d ev = some (h, v) := by
      have := (foldl_mem_keys d h environ CredMap.empty).1 hkey
      simpa [CredMap.empty, CredMap.keys] using this
    obtain ⟨pre, ev, post, henv, ⟨v, hv⟩, hpost⟩ :=
      split_last_of (fun e => ∃ v, credentialOf d e = some (h, v)) environ hex
    have hq : Qualifies d ev h v := (credentialOf_eq_some_iff d ev h v).1 hv
    have hnone : ∀ e ∈ post, ∀ w, ¬ Qualifies d e h w := by
      intro e he w hw
      exact hpost e he ⟨w, (credentialOf_eq_some_iff d e h w).2 hw⟩
    exact ⟨pre, ev, post, v, henv, hq, hnone, hlast pre post ev h v henv hq hnone⟩
  · intro ev h value hq
    rw [collect_snoc, collectStep_eq, (credentialOf_eq_some_iff d ev h value).2 hq]
  · intro ev hno
    rw [collect_snoc, collectStep_eq]
    cases hc : credentialOf d ev with
    | none => rfl
    | some kv =>
      obtain ⟨k, v⟩ := kv
      exact absurd ((credentialOf_eq_some_iff d ev k v).1 hc) (hno k v)

theorem last_entry_wins_witness :
    collectCredentialsFromEnv asciiDeps
        ["TF_TOKEN_example_org=first".toList, "TF_TOKEN_EXAMPLE_ORG=second".toList,
         "TF_TOKEN_app_terraform_io=abc123".toList] =
      [("app.terraform.io".toList, "abc123".toList), ("example.org".toList, "second".toList)] ∧
    (collectCredentialsFromEnv asciiDeps
        ["TF_TOKEN_example_org=first".toList, "TF_TOKEN_EXAMPLE_ORG=second".toList,
         "TF_TOKEN_app_terraform_io=abc123".toList]).get "example.org".toList =
      some "second".toList :=
  ⟨by decide,
   (last_entry_wins asciiDeps
      ["TF_TOKEN_example_org=first".toList, "TF_TOKEN_EXAMPLE_ORG=second".toList,
       "TF_TOKEN_app_terraform_io=abc123".toList]).2.1
      ["TF_TOKEN_example_org=first".toList] ["TF_TOKEN_app_terraform_io=abc123".toList]
      "TF_TOKEN_EXAMPLE_ORG=second".toList "example.org".toList "second".toList rfl
      ⟨"EXAMPLE_ORG".toList, rfl, by decide, rfl⟩
      (by
        intro e he w hw
        have hc := (credentialOf_eq_some_iff asciiDeps e "example.org".toList w).2 hw
        simp only [List.mem_singleton] at he
        subst he
        have hev : credentialOf asciiDeps "TF_TOKEN_app_terraform_io=abc123".toList =
            some ("app.terraform.io".toList, "abc123".toList) := by decide
        rw [hev] at hc
        simp only [Option.some.injEq, Prod.mk.injEq] at hc
        exact absurd hc.1 (by decide))⟩

/-- C9: with fewer than two arguments after the program name, whatever the
environment holds, the run exits with code 1, writes the usage text to
standard error and nothing to standard output. -/
theorem usage_on_missing_arguments (d : Deps) (environ : List Str) (prog : Str)
    (args : List Str) (hlen : args.length < 2) :
    main d environ (prog :: args) =
      some { stdout := [],
             stderr := ("Usage: terraform-credentials-env get <hostname>\n" ++
               "\nThis is a Terraform credentials helper, not intended to be run directly " ++
               "from a shell.\n").toList,
             exitCode := 1 } := by
  simp only [main, hlen, if_true]
  rfl

theorem usage_on_missing_arguments_witness :
    (collectCredentialsFromEnv asciiDeps ["TF_TOKEN_app_terraform_io=abc123".toList]).get
        "app.terraform.io".toList = some "abc123".toList ∧
    main asciiDeps ["TF_TOKEN_app_terraform_io=abc123".toList]
        ["terraform-credentials-env".toList, "get".toList] =
      some { stdout := [],
             stderr := ("Usage: terraform-credentials-env get <hostname>\n" ++
               "\nThis is a Terraform credentials helper, not intended to be run directly " ++
               "from a shell.\n").toList,
             exitCode := 1 } ∧
    main asciiDeps ["TF_TOKEN_app_terraform_io=abc123".toList]
        ["terraform-credentials-env".toList] =
      main asciiDeps [] ["terraform-credentials-env".toList, "store".toList] :=
  ⟨by decide,
   usage_on_missing_arguments asciiDeps ["TF_TOKEN_app_terraform_io=abc123".toList]
     "terraform-credentials-env".toList ["get".toList] (by decide),
   by decide⟩

/-- C10: with at least two arguments whose first, the verb `V`, is not `get`,
whatever the environment holds, the run exits with code 1, writes nothing to
standard output, and writes to standard error the line that names `V` as the
operation the helper is not able to perform. -/
theorem unsupported_verb_fails (d : Deps) (environ : List Str) (prog V h : Str)
    (more : List Str) (hV : V ≠ "get".toList) :
    main d environ (prog :: V :: h :: more) =
      some { stdout := [],
             stderr := "The \x27env\x27 credentials helper is not able to ".toList ++ V ++
               " credentials.\n".toList,
             exitCode := 1 } ∧
    V <:+: unsupportedText V := by
  have hlen : ¬ (V :: h :: more).length < 2 := by simp
  refine ⟨?_, ?_⟩
  · simp only [main, hlen, hV, if_false]
    rfl
  exact ⟨"The \x27env\x27 credentials helper is not able to ".toList,
    " credentials.\n".toList, rfl⟩

theorem unsupported_verb_fails_witness :
    (collectCredentialsFromEnv asciiDeps ["TF_TOKEN_app_terraform_io=abc123".toList]).get
        "app.terraform.io".toList = some "abc123".toList ∧
    main asciiDeps ["TF_TOKEN_app_terraform_io=abc123".toList]
        ["terraform-credentials-env".toList, "store".toList, "app.terraform.io".toList] =
      some { stdout := [],
             stderr :=
               "The \x27env\x27 credentials helper is not able to store credentials.\n".toList,
             exitCode := 1 } :=
  ⟨by decide,
   (unsupported_verb_fails asciiDeps ["TF_TOKEN_app_terraform_io=abc123".toList]
      "terraform-credentials-env".toList "store".toList "app.terraform.io".toList []
      (by decide)).1⟩

end CredentialsEnv
